import Mathlib

/-!
Verification of the netmon repository (Yz4230/netmon).

Shallow embedding of `src/main.rs` and `src/numeric_formatter.rs`:
* `f64` values (elapsed seconds, byte rates) are modelled as `ℚ`.
* The shared `HashMap<String, Vec<(f64, f64)>>` series store is modelled as an
  insertion-ordered association list `List (String × List (ℚ × ℚ))`; the Rust
  `HashMap` iteration order is unspecified (it depends on the hash seed and
  insertion history, and is in particular not sorted by key), which the
  insertion-ordered list models by making iteration order depend on the
  insertion history.
* The sampler thread body (`App::start_collector`) becomes a step function over
  explicit tick inputs: each tick carries the elapsed time read from the
  monotonic clock at the top of the loop and the per-interface transmitted byte
  counts reported by the refreshed `Networks` map (whose keys are unique).
* `App::draw` becomes a pure function from a store snapshot to the chart
  description that is handed to the widget: the datasets (name, colour,
  points), the x-axis bounds and labels, and the y-axis bounds and labels.
* The colour hash `Blake2b::<U3>` is embedded as a full Blake2b instance with
  3-byte digest, over the UTF-8 bytes of the interface name.
-/

namespace Netmon

/-- A series of sample points `(elapsed_seconds, rate_bytes_per_second)`,
modelling `Vec<(f64, f64)>`. -/
abbrev Series := List (ℚ × ℚ)

/-- The series store, modelling `HashMap<String, Vec<(f64, f64)>>` as an
insertion-ordered association list with unique keys. -/
abbrev Store := List (String × Series)

/-- The series stored for interface `n`, or the empty series when absent
(the read counterpart of `data.entry(name).or_insert_with(Vec::new)`). -/
def lookupSeries : Store → String → Series
  | [], _ => []
  | (m, v) :: rest, n => if m = n then v else lookupSeries rest n

/-- `data.entry(name).or_insert_with(Vec::new).push(p)`: append `p` to the
series of `n`, creating the entry (at the end, in insertion order) when the
key is new. -/
def entryPush : Store → String → ℚ × ℚ → Store
  | [], n, p => [(n, [p])]
  | (m, v) :: rest, n, p =>
    if m = n then (m, v ++ [p]) :: rest else (m, v) :: entryPush rest n p

/-- One iteration of the collector loop in `App::start_collector`: at elapsed
time `t`, for each `(name, transmitted)` pair reported by the refreshed
`Networks` map, push `(t, transmitted / interval_seconds)` onto that
interface's series. -/
def tickStore (iv t : ℚ) (store : Store) (readings : List (String × ℚ)) : Store :=
  readings.foldl (fun st r => entryPush st r.1 (t, r.2 / iv)) store

/-- The collector loop run over a schedule of ticks, each tick being the
elapsed time at the top of the loop together with that refresh's
per-interface transmitted byte counts. -/
def runSampler (iv : ℚ) (store : Store) (ticks : List (ℚ × List (String × ℚ))) : Store :=
  ticks.foldl (fun st tk => tickStore iv tk.1 st tk.2) store

/-! ## The numeric formatter (`src/numeric_formatter.rs`, duplicated verbatim
at the bottom of `src/main.rs`) -/

/-- Round a rational to the nearest integer, ties to even: the rounding Rust's
float formatting applies to the exact value when printing with a fixed number
of decimals. Computed on the numerator and (positive) denominator with
Euclidean division, so `f = ⌊q⌋`, `r = q - ⌊q⌋` has numerator `rn` over
denominator `d`, and comparing `2 * rn` with `d` compares `r` with `1/2`. -/
def rne (q : ℚ) : ℤ :=
  let d : ℤ := q.den
  let f : ℤ := q.num.ediv d
  let rn : ℤ := q.num.emod d
  if 2 * rn < d then f
  else if d < 2 * rn then f + 1
  else if f % 2 = 0 then f else f + 1

/-- Rust's `format!("{:.1}", x)`: the value printed with exactly one decimal
digit. -/
def fmt1 (q : ℚ) : String :=
  let n := rne (q * 10)
  let sign := if n < 0 then "-" else ""
  let m := n.natAbs
  sign ++ toString (m / 10) ++ "." ++ toString (m % 10)

/-- `const UNITS: [&str; 9] = ["", "K", "M", "G", "T", "P", "E", "Z", "Y"]`. -/
def UNITS : List String := ["", "K", "M", "G", "T", "P", "E", "Z", "Y"]

/-- The unit index chosen by `humanize_size`:
`(0..=UNITS.len()).find(|i| size < 1024f64.powi(*i)).unwrap_or(UNITS.len()).saturating_sub(1)`.
`0..=9` is `List.range 10` and `Nat` subtraction is saturating. -/
def unitIndex (size : ℚ) : Nat :=
  (((List.range 10).find? (fun i => size < 1024 ^ i)).getD 9) - 1

/-- `humanize_size`: divide by `1024^unit` and print with one decimal digit
followed by the unit suffix. -/
def humanize_size (size : ℚ) : String :=
  let unit := unitIndex size
  fmt1 (size / 1024 ^ unit) ++ UNITS.getD unit ""

/-- `humanize_bps`: `format!("{}bps", self.humanize_size())`. -/
def humanize_bps (size : ℚ) : String :=
  humanize_size size ++ "bps"

/-! ## `App::draw` -/

/-- The maximum of a list of rationals with default `0`, modelling
`iter.max_by(|a, b| a.total_cmp(b)).unwrap_or(0.0)`. -/
def maxOr0 : List ℚ → ℚ
  | [] => 0
  | a :: rest => rest.foldl max a

/-- `last_ts` in `App::draw`: across all series, the timestamp of the last
point (`0.0` for an empty series), maximised with default `0.0`. -/
def lastTs (s : Store) : ℚ :=
  maxOr0 (s.map (fun e => ((e.2.getLast?).map Prod.fst).getD 0))

/-- `max_transmitted` in `App::draw`: across all series, the maximum rate over
all of the series' points (`0.0` for an empty series), maximised with default
`0.0`. Note: every point of every series participates, with no restriction to
any visible window. -/
def maxTransmitted (s : Store) : ℚ :=
  maxOr0 (s.map (fun e => maxOr0 (e.2.map Prod.snd)))

/-! ## The interface colour: `Blake2b::<U3>` over the name's UTF-8 bytes

Blake2b (RFC 7693) with digest length 3 and no key, over 64-bit words
modelled as `Nat` reduced `% 2 ^ 64`. -/

/-- Addition modulo `2 ^ 64`. -/
def add64 (a b : Nat) : Nat := (a + b) % 2 ^ 64

/-- Rotate a 64-bit word right by `n` (for `0 < n < 64`). -/
def ror64 (x n : Nat) : Nat := ((x >>> n) ||| (x <<< (64 - n))) % 2 ^ 64

/-- The Blake2b initialisation vector. -/
def blakeIV : List Nat :=
  [0x6a09e667f3bcc908, 0xbb67ae8584caa73b, 0x3c6ef372fe94f82b, 0xa54ff53a5f1d36f1,
   0x510e527fade682d1, 0x9b05688c2b3e6c1f, 0x1f83d9abfb41bd6b, 0x5be0cd19137e2179]

/-- The Blake2 message schedule permutations. -/
def blakeSigma : List (List Nat) :=
  [[0, 1, 2, 3, 4, 5, 6, 7, 8, 9, 10, 11, 12, 13, 14, 15],
   [14, 10, 4, 8, 9, 15, 13, 6, 1, 12, 0, 2, 11, 7, 5, 3],
   [11, 8, 12, 0, 5, 2, 15, 13, 10, 14, 3, 6, 7, 1, 9, 4],
   [7, 9, 3, 1, 13, 12, 11, 14, 2, 6, 5, 10, 4, 0, 15, 8],
   [9, 0, 5, 7, 2, 4, 10, 15, 14, 1, 11, 12, 6, 8, 3, 13],
   [2, 12, 6, 10, 0, 11, 8, 3, 4, 13, 7, 5, 15, 14, 1, 9],
   [12, 5, 1, 15, 14, 13, 4, 10, 0, 7, 6, 3, 9, 2, 8, 11],
   [13, 11, 7, 14, 12, 1, 3, 9, 5, 0, 15, 4, 8, 6, 2, 10],
   [6, 15, 14, 9, 11, 3, 0, 8, 12, 2, 13, 7, 1, 4, 10, 5],
   [10, 2, 8, 4, 7, 6, 1, 5, 15, 11, 9, 14, 3, 12, 13, 0]]

/-- The Blake2b mixing function G on the 16-word working vector `v`. -/
def gMix (v : List Nat) (a b c d : Nat) (x y : Nat) : List Nat :=
  let va := add64 (add64 (v.getD a 0) (v.getD b 0)) x
  let vd := ror64 ((v.getD d 0) ^^^ va) 32
  let vc := add64 (v.getD c 0) vd
  let vb := ror64 ((v.getD b 0) ^^^ vc) 24
  let va2 := add64 (add64 va vb) y
  let vd2 := ror64 (vd ^^^ va2) 16
  let vc2 := add64 vc vd2
  let vb2 := ror64 (vb ^^^ vc2) 63
  ((((v.set a va2).set b vb2).set c vc2).set d vd2)

/-- One Blake2b round: eight G applications scheduled by `blakeSigma`. -/
def blakeRound (m v : List Nat) (r : Nat) : List Nat :=
  let s := blakeSigma.getD (r % 10) []
  let mi := fun i => m.getD (s.getD i 0) 0
  let v1 := gMix v 0 4 8 12 (mi 0) (mi 1)
  let v2 := gMix v1 1 5 9 13 (mi 2) (mi 3)
  let v3 := gMix v2 2 6 10 14 (mi 4) (mi 5)
  let v4 := gMix v3 3 7 11 15 (mi 6) (mi 7)
  let v5 := gMix v4 0 5 10 15 (mi 8) (mi 9)
  let v6 := gMix v5 1 6 11 12 (mi 10) (mi 11)
  let v7 := gMix v6 2 7 8 13 (mi 12) (mi 13)
  gMix v7 3 4 9 14 (mi 14) (mi 15)

/-- The Blake2b compression function F on state `h`, message block `m`
(16 words), byte counter `t` and finalisation flag `f`. -/
def blakeCompress (h m : List Nat) (t : Nat) (f : Bool) : List Nat :=
  let v0 := h ++ blakeIV
  let v1 := v0.set 12 ((v0.getD 12 0) ^^^ (t % 2 ^ 64))
  let v2 := v1.set 13 ((v1.getD 13 0) ^^^ (t / 2 ^ 64 % 2 ^ 64))
  let v3 := if f then v2.set 14 ((v2.getD 14 0) ^^^ (2 ^ 64 - 1)) else v2
  let vf := (List.range 12).foldl (fun v r => blakeRound m v r) v3
  (List.range 8).map (fun i => (h.getD i 0) ^^^ (vf.getD i 0) ^^^ (vf.getD (i + 8) 0))

/-- A 128-byte block (zero padded) read as 16 little-endian 64-bit words. -/
def bytesToWords (bs : List Nat) : List Nat :=
  (List.range 16).map (fun i =>
    (List.range 8).foldr (fun j acc => acc * 256 + bs.getD (8 * i + j) 0) 0)

/-- Consume the message 128 bytes at a time; the final (possibly short,
zero-padded) block is compressed with the total byte count and the final
flag set. `fuel` bounds the recursion and is instantiated with the message
length, which one block step always exceeds in the recursive case. -/
def processBlocks : Nat → List Nat → List Nat → Nat → List Nat
  | 0, h, bs, off => blakeCompress h (bytesToWords bs) (off + bs.length) true
  | fuel + 1, h, bs, off =>
    if bs.length ≤ 128 then blakeCompress h (bytesToWords bs) (off + bs.length) true
    else processBlocks fuel
      (blakeCompress h (bytesToWords (bs.take 128)) (off + 128) false)
      (bs.drop 128) (off + 128)

/-- Blake2b with digest length 3 and no key, over a byte list: initialise
`h` with the parameter block (`digest_length = 3`, `key_length = 0`,
`fanout = depth = 1`), process the message, and take the first 3 bytes of
the little-endian state. -/
def blake2b3 (input : List Nat) : List Nat :=
  let h0 := (blakeIV.set 0 ((blakeIV.getD 0 0) ^^^ 0x01010003))
  let hf := processBlocks input.length h0 input 0
  let w := hf.getD 0 0
  [w % 256, w / 256 % 256, w / 2 ^ 16 % 256]

/-- UTF-8 encoding of a single code point. -/
def utf8Encode (c : Nat) : List Nat :=
  if c < 0x80 then [c]
  else if c < 0x800 then [0xC0 ||| (c >>> 6), 0x80 ||| (c &&& 0x3F)]
  else if c < 0x10000 then
    [0xE0 ||| (c >>> 12), 0x80 ||| ((c >>> 6) &&& 0x3F), 0x80 ||| (c &&& 0x3F)]
  else
    [0xF0 ||| (c >>> 18), 0x80 ||| ((c >>> 12) &&& 0x3F),
     0x80 ||| ((c >>> 6) &&& 0x3F), 0x80 ||| (c &&& 0x3F)]

/-- `name.as_bytes()`: the UTF-8 bytes of a string. -/
def strBytes (s : String) : List Nat :=
  (s.data.map (fun c => utf8Encode c.toNat)).flatten

/-- The colour assigned to an interface in `App::draw`:
`Color::Rgb(hash[0], hash[1], hash[2])` where `hash` is the `Blake2b::<U3>`
digest of the name's bytes. A pure function of the name alone. -/
def interfaceColor (name : String) : Nat × Nat × Nat :=
  let hash := blake2b3 (strBytes name)
  (hash.getD 0 0, hash.getD 1 0, hash.getD 2 0)

/-- One drawable dataset handed to the chart widget: the interface name, its
RGB colour, and its full point list. -/
structure Dataset where
  name : String
  color : Nat × Nat × Nat
  points : Series
  deriving Repr, DecidableEq

/-- The chart description produced by `App::draw`: named, coloured datasets
plus both axes' bounds and labels. -/
structure ChartModel where
  datasets : List Dataset
  xBounds : ℚ × ℚ
  yBounds : ℚ × ℚ
  xLabels : List String
  yLabels : List String
  deriving Repr, DecidableEq

/-- `App::draw` as a pure function of the store snapshot: one dataset per
store entry, in the store's iteration order, coloured by the Blake2b hash of
the name; x-axis bounds `[0.0, last_ts]` with labels `"0"` and
`format!("{:.1}s", last_ts)`; y-axis bounds `[0.0, max_transmitted]` with
labels `"0"` and `(max_transmitted * 8).humanize_bps()`. -/
def draw (s : Store) : ChartModel :=
  { datasets := s.map (fun e =>
      { name := e.1, color := interfaceColor e.1, points := e.2 }),
    xBounds := (0, lastTs s),
    yBounds := (0, maxTransmitted s),
    xLabels := ["0", fmt1 (lastTs s) ++ "s"],
    yLabels := ["0", humanize_bps (maxTransmitted s * 8)] }

/-- The names of the datasets of a chart, in drawing order. -/
def datasetNames (c : ChartModel) : List String :=
  c.datasets.map (fun d => d.name)

/-- The colour a chart assigns to interface `n`: the colour of the first
dataset named `n`, when one exists. -/
def colorOfIn (c : ChartModel) (n : String) : Option (Nat × Nat × Nat) :=
  (c.datasets.find? (fun d => d.name = n)).map (fun d => d.color)

/-! ## Spec-side definitions (for refinement comparisons only) -/

/-- Modelled from the spec's words: "`last_timestamp_across_all_series`" read
as the maximum timestamp over every point of every series, `0` when there is
no point at all. -/
def lastTsSpec (s : Store) : ℚ :=
  ((s.map (fun e => e.2.map Prod.fst)).flatten).foldr max 0

/-- Modelled from the spec's words: the maximum rate value across all points
of all series (the spec restricts to the visible window, which for this
program's domain `[0, last_ts]` with non-negative timestamps is every
point), `0` when there is no point at all. -/
def maxRateSpec (s : Store) : ℚ :=
  ((s.map (fun e => e.2.map Prod.snd)).flatten).foldr max 0

/-! ## Lemmas about the store operations -/

theorem lookupSeries_entryPush_self (s : Store) (n : String) (p : ℚ × ℚ) :
    lookupSeries (entryPush s n p) n = lookupSeries s n ++ [p] := by
  induction s with
  | nil => simp [entryPush, lookupSeries]
  | cons e rest ih =>
    obtain ⟨m, v⟩ := e
    by_cases h : m = n
    · simp [entryPush, lookupSeries, h]
    · simp [entryPush, lookupSeries, h, ih]

theorem lookupSeries_entryPush_ne (s : Store) (n m : String) (p : ℚ × ℚ)
    (h : m ≠ n) : lookupSeries (entryPush s n p) m = lookupSeries s m := by
  induction s with
  | nil => simp [entryPush, lookupSeries, Ne.symm h]
  | cons e rest ih =>
    obtain ⟨k, v⟩ := e
    by_cases hk : k = n
    · simp [entryPush, lookupSeries, hk, Ne.symm h]
    · by_cases hm : k = m
      · simp [entryPush, lookupSeries, hk, hm, h]
      · simp [entryPush, lookupSeries, hk, hm, ih]

theorem tickStore_cons (iv t : ℚ) (store : Store) (r : String × ℚ)
    (rest : List (String × ℚ)) :
    tickStore iv t store (r :: rest) =
      tickStore iv t (entryPush store r.1 (t, r.2 / iv)) rest := rfl

theorem lookupSeries_tickStore_not_mem (iv t : ℚ) (readings : List (String × ℚ))
    (store : Store) (name : String) (h : name ∉ readings.map Prod.fst) :
    lookupSeries (tickStore iv t store readings) name = lookupSeries store name := by
  induction readings generalizing store with
  | nil => rfl
  | cons r rest ih =>
    simp only [List.map_cons, List.mem_cons, not_or] at h
    rw [tickStore_cons, ih _ h.2,
      lookupSeries_entryPush_ne store r.1 name (t, r.2 / iv) h.1]

theorem lookupSeries_tickStore_mem (iv t : ℚ) (readings : List (String × ℚ))
    (store : Store) (name : String) (tx : ℚ)
    (hnd : (readings.map Prod.fst).Nodup) (hmem : (name, tx) ∈ readings) :
    lookupSeries (tickStore iv t store readings) name =
      lookupSeries store name ++ [(t, tx / iv)] := by
  induction readings generalizing store with
  | nil => cases hmem
  | cons r rest ih =>
    simp only [List.map_cons, List.nodup_cons] at hnd
    rcases List.mem_cons.1 hmem with heq | hmem'
    · subst heq
      rw [tickStore_cons, lookupSeries_tickStore_not_mem _ _ _ _ _ hnd.1,
        lookupSeries_entryPush_self]
    · have hne : r.1 ≠ name := by
        intro hh
        exact hnd.1 (hh ▸ List.mem_map_of_mem Prod.fst hmem')
      rw [tickStore_cons, ih _ hnd.2 hmem',
        lookupSeries_entryPush_ne store r.1 name (t, r.2 / iv) (Ne.symm hne)]

theorem lookupSeries_tickStore_cases (iv t : ℚ) (readings : List (String × ℚ))
    (store : Store) (name : String) (hnd : (readings.map Prod.fst).Nodup) :
    lookupSeries (tickStore iv t store readings) name = lookupSeries store name ∨
    ∃ tx, lookupSeries (tickStore iv t store readings) name =
      lookupSeries store name ++ [(t, tx / iv)] := by
  by_cases h : name ∈ readings.map Prod.fst
  · obtain ⟨⟨n', tx⟩, hmem, heq⟩ := List.mem_map.1 h
    exact Or.inr ⟨tx, by
      rw [show n' = name from heq] at hmem
      exact lookupSeries_tickStore_mem iv t readings store name tx hnd hmem⟩
  · exact Or.inl (lookupSeries_tickStore_not_mem iv t readings store name h)

theorem lookupSeries_tickStore_extends (iv t : ℚ) (readings : List (String × ℚ))
    (store : Store) (name : String) :
    ∃ rest, lookupSeries (tickStore iv t store readings) name =
      lookupSeries store name ++ rest := by
  induction readings generalizing store with
  | nil => exact ⟨[], by simp [tickStore]⟩
  | cons r rs ih =>
    obtain ⟨rest, hrest⟩ := ih (entryPush store r.1 (t, r.2 / iv))
    rw [tickStore_cons]
    by_cases h : r.1 = name
    · refine ⟨(t, r.2 / iv) :: rest, ?_⟩
      rw [hrest, h, lookupSeries_entryPush_self]
      simp
    · refine ⟨rest, ?_⟩
      rw [hrest, lookupSeries_entryPush_ne store r.1 name (t, r.2 / iv)
        (fun hh => h hh.symm)]

theorem runSampler_cons (iv : ℚ) (store : Store) (tk : ℚ × List (String × ℚ))
    (ts : List (ℚ × List (String × ℚ))) :
    runSampler iv store (tk :: ts) =
      runSampler iv (tickStore iv tk.1 store tk.2) ts := rfl

theorem runSampler_append (iv : ℚ) (store : Store)
    (t1 t2 : List (ℚ × List (String × ℚ))) :
    runSampler iv store (t1 ++ t2) = runSampler iv (runSampler iv store t1) t2 :=
  List.foldl_append ..

theorem lookupSeries_runSampler_extends (iv : ℚ)
    (ticks : List (ℚ × List (String × ℚ))) (store : Store) (name : String) :
    ∃ rest, lookupSeries (runSampler iv store ticks) name =
      lookupSeries store name ++ rest := by
  induction ticks generalizing store with
  | nil => exact ⟨[], by simp [runSampler]⟩
  | cons tk ts ih =>
    obtain ⟨r2, h2⟩ := ih (tickStore iv tk.1 store tk.2)
    obtain ⟨r1, h1⟩ := lookupSeries_tickStore_extends iv tk.1 tk.2 store name
    exact ⟨r1 ++ r2, by rw [runSampler_cons, h2, h1, List.append_assoc]⟩

/-! ## Lemmas about list maxima -/

theorem foldr_max_zero_nonneg (l : List ℚ) : 0 ≤ l.foldr max 0 := by
  induction l with
  | nil => exact le_refl 0
  | cons a t ih => exact le_trans ih (le_max_right a _)

theorem foldr_max_init (l : List ℚ) (a : ℚ) (ha : 0 ≤ a) :
    l.foldr max a = max a (l.foldr max 0) := by
  induction l with
  | nil => simp [max_eq_left ha]
  | cons b t ih => simp only [List.foldr_cons, ih, max_left_comm]

theorem foldl_max_eq_foldr (l : List ℚ) : ∀ a : ℚ, 0 ≤ a →
    l.foldl max a = max a (l.foldr max 0) := by
  induction l with
  | nil => intro a ha; simp [max_eq_left ha]
  | cons b t ih =>
    intro a ha
    rw [List.foldl_cons, ih (max a b) (le_trans ha (le_max_left a b)),
      List.foldr_cons, max_assoc]

theorem maxOr0_eq_foldr (l : List ℚ) (h : ∀ x ∈ l, 0 ≤ x) :
    maxOr0 l = l.foldr max 0 := by
  cases l with
  | nil => rfl
  | cons a t =>
    rw [List.foldr_cons]
    exact foldl_max_eq_foldr t a (h a (List.mem_cons_self _ _))

theorem foldr_max_append (l₁ l₂ : List ℚ) :
    (l₁ ++ l₂).foldr max 0 = max (l₁.foldr max 0) (l₂.foldr max 0) := by
  rw [List.foldr_append, foldr_max_init l₁ _ (foldr_max_zero_nonneg l₂), max_comm]

theorem foldr_max_flatten (ls : List (List ℚ)) :
    ls.flatten.foldr max 0 = (ls.map (fun l => l.foldr max 0)).foldr max 0 := by
  induction ls with
  | nil => rfl
  | cons v rest ih =>
    rw [List.flatten_cons, foldr_max_append, ih, List.map_cons, List.foldr_cons]

theorem foldr_max_zero_of_all_zero (l : List ℚ) (h : ∀ x ∈ l, x = 0) :
    l.foldr max 0 = 0 := by
  induction l with
  | nil => rfl
  | cons a t ih =>
    rw [List.foldr_cons, h a (List.mem_cons_self _ _),
      ih (fun x hx => h x (List.mem_cons_of_mem _ hx)), max_self]

theorem maxOr0_eq_zero (l : List ℚ) (h : ∀ x ∈ l, x = 0) : maxOr0 l = 0 := by
  rw [maxOr0_eq_foldr l (fun x hx => le_of_eq (h x hx).symm)]
  exact foldr_max_zero_of_all_zero l h

theorem sorted_getLast_eq_max (l : List ℚ) (hs : l.Chain' (· ≤ ·))
    (h0 : ∀ x ∈ l, 0 ≤ x) : (l.getLast?).getD 0 = l.foldr max 0 := by
  induction l with
  | nil => rfl
  | cons a t ih =>
    cases t with
    | nil => simp [max_eq_left (h0 a (List.mem_cons_self _ _))]
    | cons b t' =>
      have hab : a ≤ b := (List.chain'_cons.1 hs).1
      have hrec := ih (List.chain'_cons.1 hs).2
        (fun x hx => h0 x (List.mem_cons_of_mem _ hx))
      rw [List.getLast?_cons_cons, hrec]
      have hle : a ≤ (b :: t').foldr max 0 := by
        rw [List.foldr_cons]
        exact le_trans hab (le_max_left b _)
      exact (max_eq_right hle).symm

/-! ## The axis computations against the spec-side definitions -/

theorem lastTs_eq_spec (s : Store)
    (hs : ∀ e ∈ s, (e.2.map Prod.fst).Chain' (· ≤ ·))
    (h0 : ∀ e ∈ s, ∀ p ∈ e.2, 0 ≤ p.1) :
    lastTs s = lastTsSpec s := by
  unfold lastTs lastTsSpec
  have hmap : s.map (fun e => ((e.2.getLast?).map Prod.fst).getD 0) =
      s.map (fun e => (e.2.map Prod.fst).foldr max 0) := by
    refine List.map_congr_left (fun e he => ?_)
    rw [← List.getLast?_map]
    exact sorted_getLast_eq_max (e.2.map Prod.fst) (hs e he)
      (fun x hx => by
        obtain ⟨p, hp, hpx⟩ := List.mem_map.1 hx
        exact hpx ▸ h0 e he p hp)
  rw [hmap, maxOr0_eq_foldr _ (fun x hx => by
    obtain ⟨e, _, hex⟩ := List.mem_map.1 hx
    exact hex ▸ foldr_max_zero_nonneg _),
    foldr_max_flatten]
  rw [List.map_map]
  rfl

theorem maxTransmitted_eq_spec (s : Store)
    (h0 : ∀ e ∈ s, ∀ p ∈ e.2, 0 ≤ p.2) :
    maxTransmitted s = maxRateSpec s := by
  unfold maxTransmitted maxRateSpec
  have hmap : s.map (fun e => maxOr0 (e.2.map Prod.snd)) =
      s.map (fun e => (e.2.map Prod.snd).foldr max 0) := by
    refine List.map_congr_left (fun e he => ?_)
    exact maxOr0_eq_foldr _ (fun x hx => by
      obtain ⟨p, hp, hpx⟩ := List.mem_map.1 hx
      exact hpx ▸ h0 e he p hp)
  rw [hmap, maxOr0_eq_foldr _ (fun x hx => by
    obtain ⟨e, _, hex⟩ := List.mem_map.1 hx
    exact hex ▸ foldr_max_zero_nonneg _),
    foldr_max_flatten]
  rw [List.map_map]
  rfl

theorem lastTs_all_empty (s : Store) (h : ∀ e ∈ s, e.2 = []) : lastTs s = 0 := by
  unfold lastTs
  refine maxOr0_eq_zero _ (fun x hx => ?_)
  obtain ⟨e, he, hex⟩ := List.mem_map.1 hx
  rw [← hex, h e he]
  rfl

theorem maxTransmitted_all_empty (s : Store) (h : ∀ e ∈ s, e.2 = []) :
    maxTransmitted s = 0 := by
  unfold maxTransmitted
  refine maxOr0_eq_zero _ (fun x hx => ?_)
  obtain ⟨e, he, hex⟩ := List.mem_map.1 hx
  rw [← hex, h e he]
  rfl

/-! ## The colour of a dataset as a function of the interface name -/

theorem colorOfIn_draw (s : Store) (n : String) (h : n ∈ s.map Prod.fst) :
    colorOfIn (draw s) n = some (interfaceColor n) := by
  induction s with
  | nil => simp at h
  | cons e rest ih =>
    by_cases he : e.1 = n
    · simp [colorOfIn, draw, List.find?_cons, he]
    · have h2 : n = e.1 ∨ n ∈ rest.map Prod.fst := by
        simpa only [List.map_cons, List.mem_cons] using h
      have h' : n ∈ rest.map Prod.fst := by
        rcases h2 with heq | hmem
        · exact absurd heq.symm he
        · exact hmem
      have := ih h'
      simp only [colorOfIn, draw, List.map_cons, List.find?_cons] at this ⊢
      simpa [he] using this

theorem runSampler_sorted (iv : ℚ) (ticks : List (ℚ × List (String × ℚ))) :
    ∀ store : Store,
    (∀ tk ∈ ticks, (tk.2.map Prod.fst).Nodup) →
    (ticks.map Prod.fst).Pairwise (· < ·) →
    (∀ name, ((lookupSeries store name).map Prod.fst).Chain' (· < ·)) →
    (∀ name p, p ∈ lookupSeries store name → ∀ tk ∈ ticks, p.1 < tk.1) →
    ∀ name, ((lookupSeries (runSampler iv store ticks) name).map Prod.fst).Chain' (· < ·) := by
  induction ticks with
  | nil =>
    intro store _ _ hsorted _ name
    simpa [runSampler] using hsorted name
  | cons tk ts ih =>
    intro store hnd hpw hsorted hbound name
    rw [runSampler_cons]
    have hndtk : (tk.2.map Prod.fst).Nodup := hnd tk (List.mem_cons_self _ _)
    have hpw0 : (tk.1 :: ts.map Prod.fst).Pairwise (· < ·) := by
      simpa only [List.map_cons] using hpw
    have hpw' := List.pairwise_cons.1 hpw0
    refine ih (tickStore iv tk.1 store tk.2) ?_ ?_ ?_ ?_ name
    · exact fun tk' h => hnd tk' (List.mem_cons_of_mem _ h)
    · exact hpw'.2
    · intro nm
      rcases lookupSeries_tickStore_cases iv tk.1 tk.2 store nm hndtk with heq | ⟨tx, heq⟩
      · rw [heq]; exact hsorted nm
      · rw [heq, List.map_append]
        refine List.chain'_append.2 ⟨hsorted nm, List.chain'_singleton _, ?_⟩
        intro x hx y hy
        simp only [List.map_cons, List.map_nil, List.head?_cons, Option.mem_def,
          Option.some.injEq] at hy
        have hxmem : x ∈ (lookupSeries store nm).map Prod.fst :=
          List.mem_of_mem_getLast? hx
        obtain ⟨p, hp, hpx⟩ := List.mem_map.1 hxmem
        rw [← hy, ← hpx]
        exact hbound nm p hp tk (List.mem_cons_self _ _)
    · intro nm p hp tk' htk'
      rcases lookupSeries_tickStore_cases iv tk.1 tk.2 store nm hndtk with heq | ⟨tx, heq⟩
      · exact hbound nm p (heq ▸ hp) tk' (List.mem_cons_of_mem _ htk')
      · rw [heq] at hp
        rcases List.mem_append.1 hp with hold | hnew
        · exact hbound nm p hold tk' (List.mem_cons_of_mem _ htk')
        · have hpt : p.1 = tk.1 := by
            simp only [List.mem_singleton] at hnew
            rw [hnew]
          rw [hpt]
          exact hpw'.1 tk'.1 (List.mem_map_of_mem Prod.fst htk')

/-! ## The claims -/

/-- C1, counterexample: the claim says that for display duration `D = 60` and
`last_timestamp = 30` the x-axis domain is `[0, 60]`; `App::draw` never
consults a display duration and emits `[0.0, last_ts]`, which for a store
whose latest timestamp is `30` is `[0, 30]`, not `[0, 60]`. -/
theorem draw_xBounds_ignores_display_duration :
    (draw [("eth0", [(10, 100), (30, 200)])]).xBounds = (0, 30) ∧
    (draw [("eth0", [(10, 100), (30, 200)])]).xBounds ≠ (0, 60) := by decide

/-- C1, amended: the visible time domain is `[0, last_timestamp_across_all_series]`
(the display duration plays no role): provided every series is
time-nondecreasing with non-negative timestamps — both hold for stores built
by the sampler — the upper bound equals the spec-side maximum timestamp over
all points, and the lower bound is always `0`. -/
theorem draw_xBounds_eq_zero_to_last_timestamp (s : Store)
    (hs : ∀ e ∈ s, (e.2.map Prod.fst).Chain' (· ≤ ·))
    (h0 : ∀ e ∈ s, ∀ p ∈ e.2, 0 ≤ p.1) :
    (draw s).xBounds = (0, lastTsSpec s) := by
  show (0, lastTs s) = (0, lastTsSpec s)
  rw [lastTs_eq_spec s hs h0]

/-- Witness for C1's amended theorem at a concrete sorted store. -/
theorem draw_xBounds_eq_zero_to_last_timestamp_witness :
    (∀ e ∈ ([("eth0", [(10, 100), (30, 200)])] : Store),
      (e.2.map Prod.fst).Chain' (· ≤ ·)) ∧
    (draw [("eth0", [(10, 100), (30, 200)])]).xBounds =
      (0, lastTsSpec [("eth0", [(10, 100), (30, 200)])]) :=
  ⟨by simp [List.chain'_cons]; norm_num,
   draw_xBounds_eq_zero_to_last_timestamp _
     (by simp [List.chain'_cons]; norm_num)
     (by decide)⟩

/-- C2, counterexample: the claim says a point before the window start is
excluded from the range computation (a point at `t = 5` with rate `9000`
contributes nothing when `start = 40`); `App::draw` maximises over every
point of every series, so with points `(5, 9000)` and `(50, 5000)` the
y-bounds are `[0, 9000]`, not `[0, 5000]`. -/
theorem draw_yBounds_includes_point_before_window :
    (draw [("eth0", [(5, 9000), (50, 5000)])]).yBounds = (0, 9000) ∧
    (draw [("eth0", [(5, 9000), (50, 5000)])]).yBounds ≠ (0, 5000) := by decide

/-- C2, amended: the value range is `[0, max_rate]` where `max_rate` is the
maximum rate over ALL points of all series, with no restriction to any
window: provided rates are non-negative (which they are for sampler-built
stores), the upper bound equals the spec-side global maximum rate. -/
theorem draw_yBounds_eq_global_max_rate (s : Store)
    (h0 : ∀ e ∈ s, ∀ p ∈ e.2, 0 ≤ p.2) :
    (draw s).yBounds = (0, maxRateSpec s) := by
  show (0, maxTransmitted s) = (0, maxRateSpec s)
  rw [maxTransmitted_eq_spec s h0]

/-- Witness for C2's amended theorem at a concrete store. -/
theorem draw_yBounds_eq_global_max_rate_witness :
    (∀ e ∈ ([("eth0", [(5, 9000), (50, 5000)])] : Store), ∀ p ∈ e.2, 0 ≤ p.2) ∧
    (draw [("eth0", [(5, 9000), (50, 5000)])]).yBounds =
      (0, maxRateSpec [("eth0", [(5, 9000), (50, 5000)])]) :=
  ⟨by decide, draw_yBounds_eq_global_max_rate _ (by decide)⟩

/-- C3: starting from the empty store, over any schedule of collector ticks
whose elapsed times strictly increase (the monotonic clock read at the top of
each loop iteration, separated by a positive sleep) and whose per-tick
refreshed interface maps have unique names, every series' timestamps are
strictly increasing, and the run is append-only: the store after any prefix
of the schedule is a prefix of every series of the final store. -/
theorem sampler_timestamps_strictly_increasing_append_only (iv : ℚ)
    (ticks : List (ℚ × List (String × ℚ)))
    (hnd : ∀ tk ∈ ticks, (tk.2.map Prod.fst).Nodup)
    (hmono : (ticks.map Prod.fst).Pairwise (· < ·)) :
    (∀ name,
      ((lookupSeries (runSampler iv [] ticks) name).map Prod.fst).Chain' (· < ·)) ∧
    (∀ ticks1 ticks2, ticks = ticks1 ++ ticks2 → ∀ name,
      ∃ rest, lookupSeries (runSampler iv [] ticks) name =
        lookupSeries (runSampler iv [] ticks1) name ++ rest) := by
  constructor
  · exact runSampler_sorted iv ticks [] hnd hmono
      (fun name => by simp [lookupSeries])
      (fun name p hp => by simp [lookupSeries] at hp)
  · intro t1 t2 heq name
    rw [heq, runSampler_append]
    exact lookupSeries_runSampler_extends iv t2 (runSampler iv [] t1) name

/-- Witness for C3 on a two-tick schedule at interval `1/10` seconds. -/
theorem sampler_timestamps_strictly_increasing_append_only_witness :
    ((([(1, [("eth0", 1000)]), (2, [("eth0", 500)])] :
        List (ℚ × List (String × ℚ))).map Prod.fst).Pairwise (· < ·)) ∧
    ((lookupSeries
        (runSampler (1/10) [] [(1, [("eth0", 1000)]), (2, [("eth0", 500)])])
        "eth0").map Prod.fst).Chain' (· < ·) :=
  ⟨by decide,
   (sampler_timestamps_strictly_increasing_append_only (1/10)
      [(1, [("eth0", 1000)]), (2, [("eth0", 500)])]
      (by decide)
      (by decide)).1 "eth0"⟩

/-- C4: on a collector tick at elapsed time `t`, the point appended for an
interface whose refresh reported `tx` transmitted bytes is exactly
`(t, tx / interval_seconds)` — appended after the interface's existing
series, which is otherwise unchanged. -/
theorem tick_appends_rate_transmitted_div_interval (iv t : ℚ) (store : Store)
    (readings : List (String × ℚ)) (name : String) (tx : ℚ)
    (hnd : (readings.map Prod.fst).Nodup) (hmem : (name, tx) ∈ readings) :
    lookupSeries (tickStore iv t store readings) name =
      lookupSeries store name ++ [(t, tx / iv)] :=
  lookupSeries_tickStore_mem iv t readings store name tx hnd hmem

/-- Witness for C4: transmitted `1000` bytes over a `100` ms (= `1/10` s)
interval yields rate `1000 / 0.1 = 10000` bytes per second. -/
theorem tick_appends_rate_transmitted_div_interval_witness :
    ((([("eth0", 1000)] : List (String × ℚ)).map Prod.fst).Nodup) ∧
    lookupSeries (tickStore (1/10) 5 [] [("eth0", 1000)]) "eth0" =
      [(5, 10000)] :=
  ⟨by simp, by
    rw [tick_appends_rate_transmitted_div_interval (1/10) 5 [] [("eth0", 1000)]
      "eth0" 1000 (by simp) (by simp)]
    simp only [lookupSeries, List.nil_append, List.cons.injEq, Prod.mk.injEq]
    norm_num⟩

/-- C5, counterexample: the claim says that with no data the domain defaults
to `[0, D]` (so `[0, 60]` for `D = 60`); `App::draw` on the empty store emits
domain `[0, 0]` and range `[0, 0]`. -/
theorem draw_empty_store_domain_counterexample :
    (draw ([] : Store)).xBounds = (0, 0) ∧ (draw ([] : Store)).yBounds = (0, 0) ∧
    (draw ([] : Store)).xBounds ≠ (0, 60) := by decide

/-- C5, amended: when the store has no data at all (no interfaces, or every
series empty), the domain defaults to `[0, 0]` — not `[0, D]` — and the
range defaults to `[0, 0]`. -/
theorem draw_all_series_empty_bounds_zero (s : Store) (h : ∀ e ∈ s, e.2 = []) :
    (draw s).xBounds = (0, 0) ∧ (draw s).yBounds = (0, 0) := by
  constructor
  · show (0, lastTs s) = (0, 0)
    rw [lastTs_all_empty s h]
  · show (0, maxTransmitted s) = (0, 0)
    rw [maxTransmitted_all_empty s h]

/-- Witness for C5's amended theorem: interfaces present, all series empty. -/
theorem draw_all_series_empty_bounds_zero_witness :
    (∀ e ∈ ([("eth0", []), ("lo", [])] : Store), e.2 = []) ∧
    (draw [("eth0", []), ("lo", [])]).xBounds = (0, 0) :=
  ⟨by decide,
   (draw_all_series_empty_bounds_zero [("eth0", []), ("lo", [])] (by decide)).1⟩

/-- C6, counterexample: the claim says two snapshots with the same set of
interface names yield datasets in the same order; the store is a hash map
iterated in an unspecified, insertion-dependent order (modelled here as the
association list's order), so the same name set `{eth0, wlan0}` can produce
the dataset orders `[eth0, wlan0]` and `[wlan0, eth0]`. -/
theorem draw_dataset_order_not_name_determined :
    ((([("eth0", []), ("wlan0", [])] : Store).map Prod.fst).Perm
      (([("wlan0", []), ("eth0", [])] : Store).map Prod.fst)) ∧
    datasetNames (draw [("eth0", []), ("wlan0", [])]) ≠
      datasetNames (draw [("wlan0", []), ("eth0", [])]) := by decide

/-- C6, amended: the datasets are produced in the store's own iteration
order — which is not sorted by name and is not a function of the name set —
one dataset per store entry. -/
theorem draw_dataset_order_follows_store_order (s : Store) :
    datasetNames (draw s) = s.map Prod.fst := by
  simp only [datasetNames, draw, List.map_map]
  exact List.map_congr_left (fun e _ => rfl)

/-- C7: the colour attached to an interface's dataset is
`interfaceColor name` — the 3-byte Blake2b digest of the name's bytes read
as RGB — a function of the name alone: any two snapshots containing the
interface assign it the same RGB triple. -/
theorem interface_color_function_of_name (s1 s2 : Store) (n : String)
    (h1 : n ∈ s1.map Prod.fst) (h2 : n ∈ s2.map Prod.fst) :
    colorOfIn (draw s1) n = some (interfaceColor n) ∧
    colorOfIn (draw s1) n = colorOfIn (draw s2) n := by
  refine ⟨colorOfIn_draw s1 n h1, ?_⟩
  rw [colorOfIn_draw s1 n h1, colorOfIn_draw s2 n h2]

/-- Witness for C7 at two different snapshots containing `eth0`. -/
theorem interface_color_function_of_name_witness :
    ("eth0" ∈ ([("eth0", [])] : Store).map Prod.fst) ∧
    colorOfIn (draw [("eth0", [])]) "eth0" =
      colorOfIn (draw [("wlan0", [(1, 2)]), ("eth0", [(3, 4)])]) "eth0" :=
  ⟨by decide,
   (interface_color_function_of_name [("eth0", [])]
      [("wlan0", [(1, 2)]), ("eth0", [(3, 4)])] "eth0"
      (by decide) (by decide)).2⟩

/-- C8, counterexample: the claim says degenerate axis bounds are clamped to
a minimal non-zero extent; `App::draw` performs no clamping: a store whose
only point is `(0, 0)` yields zero-width x-bounds and zero-height y-bounds,
passed to the chart widget as-is. -/
theorem draw_degenerate_bounds_not_clamped_cex :
    (draw [("lo", [(0, 0)])]).xBounds.1 = (draw [("lo", [(0, 0)])]).xBounds.2 ∧
    (draw [("lo", [(0, 0)])]).yBounds.1 = (draw [("lo", [(0, 0)])]).yBounds.2 := by
  decide

/-- C8, amended: degenerate bounds are reachable on first render (before any
data exists) and are passed through unchanged — with every series empty the
emitted x-bounds have zero width and the y-bounds zero height; no clamping
happens in `App::draw`. -/
theorem draw_no_data_bounds_degenerate (s : Store) (h : ∀ e ∈ s, e.2 = []) :
    (draw s).xBounds.2 - (draw s).xBounds.1 = 0 ∧
    (draw s).yBounds.2 - (draw s).yBounds.1 = 0 := by
  have hx := lastTs_all_empty s h
  have hy := maxTransmitted_all_empty s h
  constructor
  · show lastTs s - 0 = 0
    rw [hx, sub_zero]
  · show maxTransmitted s - 0 = 0
    rw [hy, sub_zero]

/-- Witness for C8's amended theorem at a store with one empty series. -/
theorem draw_no_data_bounds_degenerate_witness :
    (∀ e ∈ ([("wlan0", [])] : Store), e.2 = []) ∧
    (draw [("wlan0", [])]).xBounds.2 - (draw [("wlan0", [])]).xBounds.1 = 0 :=
  ⟨by decide, (draw_no_data_bounds_degenerate [("wlan0", [])] (by decide)).1⟩

/-- C9: `humanize_size` maps `0` to `"0.0"`, `1024` to `"1.0K"` and `1024²`
to `"1.0M"`, and `humanize_bps` is `humanize_size` with `"bps"` appended,
for every input. -/
theorem humanize_size_examples_and_bps_suffix :
    humanize_size 0 = "0.0" ∧ humanize_size 1024 = "1.0K" ∧
    humanize_size (1024 ^ 2) = "1.0M" ∧
    ∀ x : ℚ, humanize_bps x = humanize_size x ++ "bps" := by
  refine ⟨?_, ?_, ?_, fun x => rfl⟩
  · have hu : unitIndex 0 = 0 := by decide
    have hdiv : (0 : ℚ) / 1024 ^ 0 = 0 := by norm_num
    have hf : fmt1 0 = "0.0" := by unfold fmt1 rne; norm_num; decide
    simp only [humanize_size, hu, hdiv, hf]
    rfl
  · have hu : unitIndex 1024 = 1 := by decide
    have hdiv : (1024 : ℚ) / 1024 ^ 1 = 1 := by norm_num
    have hf : fmt1 1 = "1.0" := by unfold fmt1 rne; norm_num; decide
    simp only [humanize_size, hu, hdiv, hf]
    rfl
  · have hu : unitIndex (1024 ^ 2) = 2 := by decide
    have hdiv : (1024 : ℚ) ^ 2 / 1024 ^ 2 = 1 := by norm_num
    have hf : fmt1 1 = "1.0" := by unfold fmt1 rne; norm_num; decide
    simp only [humanize_size, hu, hdiv, hf]
    rfl

/-- C10: the computed unit index never exceeds `8`, the last index of the
9-element `UNITS` table (so the indexing never goes out of bounds), and every
input of `1024 ^ 9` or more saturates to the `"Y"` suffix. -/
theorem humanize_size_unit_index_total_saturates :
    (∀ q : ℚ, unitIndex q ≤ 8) ∧
    (∀ q : ℚ, (1024 : ℚ) ^ 9 ≤ q →
      unitIndex q = 8 ∧ humanize_size q = fmt1 (q / 1024 ^ 8) ++ "Y") := by
  have hle : ∀ q : ℚ, unitIndex q ≤ 8 := by
    intro q
    unfold unitIndex
    cases hfind : (List.range 10).find? (fun i => decide (q < 1024 ^ i)) with
    | none => simp
    | some i =>
      have hi : i < 10 := List.mem_range.1 (List.mem_of_find?_eq_some hfind)
      simp only [Option.getD_some]
      omega
  refine ⟨hle, fun q hq => ?_⟩
  have hnone : (List.range 10).find? (fun i => decide (q < 1024 ^ i)) = none := by
    rw [List.find?_eq_none]
    intro i hi
    have hi9 : i ≤ 9 := Nat.lt_succ_iff.1 (List.mem_range.1 hi)
    simp only [decide_eq_true_eq, not_lt]
    calc (1024 : ℚ) ^ i ≤ 1024 ^ 9 := pow_le_pow_right₀ (by norm_num) hi9
      _ ≤ q := hq
  have hunit : unitIndex q = 8 := by
    unfold unitIndex
    rw [hnone]
    rfl
  refine ⟨hunit, ?_⟩
  simp only [humanize_size, hunit]
  rfl

/-- Witness for C10 at `q = 1024 ^ 9`. -/
theorem humanize_size_unit_index_total_saturates_witness :
    (1024 : ℚ) ^ 9 ≤ (1024 : ℚ) ^ 9 ∧ unitIndex ((1024 : ℚ) ^ 9) = 8 ∧
    humanize_size ((1024 : ℚ) ^ 9) = fmt1 ((1024 : ℚ) ^ 9 / 1024 ^ 8) ++ "Y" :=
  ⟨le_refl _,
   (humanize_size_unit_index_total_saturates.2 ((1024 : ℚ) ^ 9) (le_refl _)).1,
   (humanize_size_unit_index_total_saturates.2 ((1024 : ℚ) ^ 9) (le_refl _)).2⟩

end Netmon
